import Mathlib

/-!
Verification of the bridge coupling layer described by the AMUSE-Tutorial
specification against a shallow embedding.

The tutorial notebooks under version control only call the coupling layer
(`bridge.Bridge`, particle-set channels, the composition methods); the layer
itself is an external collaborator of the notebooks.  Where a definition below
embeds that layer it is marked `Modelled from the spec:` and follows the
specification text; the supernova energy injection of the hydrodynamics
notebook is embedded directly from its source.  Machine reals are embedded as
exact rationals.
-/

set_option autoImplicit false

/-- Modelled from the spec: the `evolve_model(t_end)` stepping loop of
`Bridge` (the implementation lives in the external `amuse.couple.bridge`
module; only its callers are in the notebooks).  While
`current_time < t_end - dt/2` the bridge performs one coupling step (the
abstract `step` function, standing for one invocation of the composition
method on all subsystems) and then advances `current_time` by `dt`.  The
recursion is presented with explicit fuel; termination is proved as a
theorem. -/
def bridgeLoop {S : Type} (step : S → S) (dt tEnd : ℚ) : ℕ → ℚ × S → ℚ × S
  | 0, st => st
  | fuel + 1, st =>
    if st.1 < tEnd - dt / 2 then
      bridgeLoop step dt tEnd fuel (st.1 + dt, step st.2)
    else st

/-- Modelled from the spec: the two phases a composition method interleaves,
a `kick` (velocity update from external gravity) and a `drift` (a subsystem
advancing its own dynamics).  The implementation lives in the external
`amuse.ext.composition_methods` module. -/
inductive Phase where
  | kick
  | drift
deriving DecidableEq

/-- Modelled from the spec: a composition method is a fixed named sequence of
kick/drift calls, each with a fixed coefficient to be multiplied by the
timestep. -/
abbrev Method := List (Phase × ℚ)

/-- One call of a composition method: apply the kick closure `K` or the drift
closure `D` to the coefficient times the timestep. -/
def stepOp {S : Type} (K D : ℚ → S → S) (dt : ℚ) (s : S) (pc : Phase × ℚ) : S :=
  match pc.1 with
  | Phase.kick => K (pc.2 * dt) s
  | Phase.drift => D (pc.2 * dt) s

/-- Modelled from the spec: executing a composition method is calling the
kick/drift closures in the method's fixed order with its fixed
sub-fractions of the timestep. -/
def runMethod {S : Type} (K D : ℚ → S → S) (m : Method) (dt : ℚ) (s : S) : S :=
  m.foldl (stepOp K D dt) s

/-- Modelled from the spec: the 2nd-order leapfrog method,
kick(dt/2); drift(dt); kick(dt/2). -/
def LEAPFROG : Method :=
  [(Phase.kick, 1 / 2), (Phase.drift, 1), (Phase.kick, 1 / 2)]

/-- Modelled from the spec: first kick coefficient of the 4th-order symmetric
composition SPLIT_4TH_S_M4 (a fixed precomputed constant). -/
def splitM4K1 : ℚ := 209515106613362 / 1000000000000000

/-- Modelled from the spec: second kick coefficient of SPLIT_4TH_S_M4. -/
def splitM4K2 : ℚ := -143851773179818 / 1000000000000000

/-- Modelled from the spec: middle kick coefficient of SPLIT_4TH_S_M4, fixed
by the closure relation making the kick coefficients sum to one over the
symmetric sequence. -/
def splitM4K3 : ℚ := 1 / 2 - splitM4K1 - splitM4K2

/-- Modelled from the spec: first drift coefficient of SPLIT_4TH_S_M4. -/
def splitM4D1 : ℚ := 792036964311957 / 10000000000000000

/-- Modelled from the spec: second drift coefficient of SPLIT_4TH_S_M4. -/
def splitM4D2 : ℚ := 353172906049774 / 1000000000000000

/-- Modelled from the spec: middle drift coefficient of SPLIT_4TH_S_M4, fixed
by the closure relation making the drift coefficients sum to one. -/
def splitM4D3 : ℚ := 1 - 2 * (splitM4D1 + splitM4D2)

/-- Modelled from the spec: the 4th-order symmetric composition method
SPLIT_4TH_S_M4, a palindromic sequence of kicks and drifts with fixed
precomputed coefficients. -/
def SPLIT_4TH_S_M4 : Method :=
  [(Phase.kick, splitM4K1), (Phase.drift, splitM4D1),
   (Phase.kick, splitM4K2), (Phase.drift, splitM4D2),
   (Phase.kick, splitM4K3), (Phase.drift, splitM4D3),
   (Phase.kick, splitM4K3), (Phase.drift, splitM4D2),
   (Phase.kick, splitM4K2), (Phase.drift, splitM4D1),
   (Phase.kick, splitM4K1)]

/-- Modelled from the spec: the error taxonomy of the coupling layer.
`engineFailure` is raised by an external subsystem that could not evolve;
`invalidState` flags misuse of the bridge API. -/
inductive BridgeError where
  | engineFailure
  | invalidState
deriving DecidableEq

/-- Modelled from the spec: one coupling step of the composition method in
which the drift closure `D` may fail with an `EngineFailure` raised by the
underlying engine.  A failed drift aborts the whole step and the error is
returned unchanged; nothing is committed. -/
def runMethodE {S : Type} (K : ℚ → S → S) (D : ℚ → S → Except BridgeError S)
    (dt : ℚ) : Method → S → Except BridgeError S
  | [], s => Except.ok s
  | pc :: rest, s =>
    match pc.1 with
    | Phase.kick => runMethodE K D dt rest (K (pc.2 * dt) s)
    | Phase.drift =>
      match D (pc.2 * dt) s with
      | Except.ok s1 => runMethodE K D dt rest s1
      | Except.error e => Except.error e

/-- Modelled from the spec: the bridge stepping loop when the coupling step
can fail.  On a step failure the loop stops immediately and returns the
error together with the uncommitted time and state (the failed step does not
advance `current_time`); the error is propagated, never caught or retried. -/
def evolveBE {S : Type} (step : S → Except BridgeError S) (dt tEnd : ℚ) :
    ℕ → ℚ × S → Except (BridgeError × ℚ × S) (ℚ × S)
  | 0, st => Except.ok st
  | fuel + 1, st =>
    if st.1 < tEnd - dt / 2 then
      match step st.2 with
      | Except.ok s1 => evolveBE step dt tEnd fuel (st.1 + dt, s1)
      | Except.error e => Except.error (e, st.1, st.2)
    else Except.ok st

/-- A concrete kick closure for the failure witness: the identity. -/
def kickIdFn : ℚ → ℚ → ℚ := fun _ x => x

/-- A concrete drift closure for the failure witness: the underlying engine
always raises `EngineFailure`. -/
def driftFailFn : ℚ → ℚ → Except BridgeError ℚ :=
  fun _ _ => Except.error BridgeError.engineFailure

/-- The kick coefficients of a method, in order. -/
def kickCoeffs (m : Method) : List ℚ :=
  (m.filter (fun pc => pc.1 == Phase.kick)).map Prod.snd

/-- The drift coefficients of a method, in order. -/
def driftCoeffs (m : Method) : List ℚ :=
  (m.filter (fun pc => pc.1 == Phase.drift)).map Prod.snd

/-- Sum of the kick coefficients of a method. -/
def kickSum (m : Method) : ℚ := (kickCoeffs m).sum

/-- Sum of the drift coefficients of a method. -/
def driftSum (m : Method) : ℚ := (driftCoeffs m).sum

/-- A 3-vector of exact rationals (positions, velocities, accelerations). -/
abbrev Vec3 := ℚ × ℚ × ℚ

/-- Componentwise vector addition. -/
def vadd (a b : Vec3) : Vec3 := (a.1 + b.1, a.2.1 + b.2.1, a.2.2 + b.2.2)

/-- Scalar multiplication of a vector. -/
def smul (c : ℚ) (a : Vec3) : Vec3 := (c * a.1, c * a.2.1, c * a.2.2)

/-- The zero vector. -/
def vzero : Vec3 := (0, 0, 0)

/-- Sum of a list of vectors. -/
def vsum (l : List Vec3) : Vec3 := l.foldr vadd vzero

/-- Modelled from the spec: a particle of the shared data model, with mass,
3D position and 3D velocity. -/
structure Particle where
  mass : ℚ
  pos : Vec3
  vel : Vec3
deriving DecidableEq

/-- A subsystem's particle collection. -/
abbrev Sys := List Particle

/-- Modelled from the spec: `get_gravity_at_point` of a perturber subsystem,
as the sum over its particles of an abstract pairwise gravity kernel `g`
taking the source mass, the source position and the field point.  Only the
perturber's masses and positions enter. -/
def accelOfSys (g : ℚ → Vec3 → Vec3 → Vec3) (s : Sys) (pt : Vec3) : Vec3 :=
  vsum (s.map (fun p => g p.mass p.pos pt))

/-- Total acceleration at a point from a list of perturber subsystems. -/
def accelOfSystems (g : ℚ → Vec3 → Vec3 → Vec3) (ss : List Sys) (pt : Vec3) :
    Vec3 :=
  vsum (ss.map (fun s => accelOfSys g s pt))

/-- Modelled from the spec: the kick applied to one subsystem: every particle
receives the velocity increment dt times the acceleration field evaluated at
the particle's position; masses and positions are untouched. -/
def kickSys (a : Vec3 → Vec3) (dt : ℚ) (s : Sys) : Sys :=
  s.map (fun p => { p with vel := vadd p.vel (smul dt (a p.pos)) })

/-- The masses and positions of a subsystem's particles, in order — the only
data a gravity query can observe. -/
def massPosL (s : Sys) : List (ℚ × Vec3) := s.map (fun p => (p.mass, p.pos))

/-- Pair each element of a list with its index, starting from `i`. -/
def withIdx {α : Type} : ℕ → List α → List (ℕ × α)
  | _, [] => []
  | i, a :: l => (i, a) :: withIdx (i + 1) l

/-- The acceleration field seen by subsystem `i`: the sum of the gravity of
its registered perturbers, looked up by index in the given snapshot of all
subsystems. -/
def perturberAccel (g : ℚ → Vec3 → Vec3 → Vec3) (perts : List (List ℕ))
    (systems : List Sys) (i : ℕ) : Vec3 → Vec3 :=
  accelOfSystems g ((perts.getD i []).map (fun j => systems.getD j []))

/-- Modelled from the spec: the synchronized kick phase — every subsystem's
perturber accelerations are evaluated on the one shared pre-kick snapshot of
all subsystems, and the velocity increments are then applied to every
subsystem. -/
def kickAllSim (g : ℚ → Vec3 → Vec3 → Vec3) (dt : ℚ) (perts : List (List ℕ))
    (systems : List Sys) : List Sys :=
  (withIdx 0 systems).map
    (fun p => kickSys (perturberAccel g perts systems p.1) dt p.2)

/-- A sequential in-place rendering of the kick phase: subsystems are kicked
one at a time, and each perturber acceleration is read from the current,
partially kicked list of subsystems rather than from a snapshot. -/
def kickAllSeqGo (g : ℚ → Vec3 → Vec3 → Vec3) (dt : ℚ) (perts : List (List ℕ)) :
    List (ℕ × Sys) → List Sys → List Sys
  | [], _ => []
  | p :: rest, cur =>
    kickSys (perturberAccel g perts cur p.1) dt (cur.getD p.1 [])
      :: kickAllSeqGo g dt perts rest
          (cur.set p.1 (kickSys (perturberAccel g perts cur p.1) dt (cur.getD p.1 [])))

/-- The sequential kick phase over all subsystems in registration order. -/
def kickAllSeq (g : ℚ → Vec3 → Vec3 → Vec3) (dt : ℚ) (perts : List (List ℕ))
    (systems : List Sys) : List Sys :=
  kickAllSeqGo g dt perts (withIdx 0 systems) systems

/-- Modelled from the spec: one coupling step of a bridge holding a single
subsystem with an empty perturber set: the kick closure applies the gravity
of the empty list of perturbers, the drift closure is the subsystem's own
deterministic evolution flow `F` (advance by the given interval). -/
def bridge1Step (g : ℚ → Vec3 → Vec3 → Vec3) (F : ℚ → Sys → Sys) (m : Method)
    (dt : ℚ) (s : Sys) : Sys :=
  runMethod (fun c s => kickSys (accelOfSystems g []) c s) F m dt s

/-- Modelled from the spec: calling the subsystem's own `evolve_model`
directly with an absolute target time, from local time `t0`, advances the
subsystem's flow by the difference. -/
def subsystemEvolve (F : ℚ → Sys → Sys) (t0 tEnd : ℚ) (s : Sys) : Sys :=
  F (tEnd - t0) s

/-- A concrete gravity kernel for the counterexample: identically zero. -/
def gzeroFn : ℚ → Vec3 → Vec3 → Vec3 := fun _ _ _ => vzero

/-- A concrete deterministic subsystem flow for the counterexample: uniform
translation along the x axis at unit rate. -/
def translateFlow : ℚ → Sys → Sys :=
  fun c s => s.map (fun p => { p with pos := vadd p.pos (c, 0, 0) })

/-- A concrete identity subsystem flow (an engine whose state never moves),
used to discharge the flow laws in witnesses. -/
def idFlow : ℚ → Sys → Sys := fun _ s => s

/-- A one-particle subsystem at the origin. -/
def oneParticle : Sys := [{ mass := 1, pos := vzero, vel := vzero }]

/-- Modelled from the spec: the registration state of a bridge — the ordered
list of (subsystem, perturber set) entries, identified by subsystem id, and
whether the run has started (the first `evolve_model` call has happened). -/
structure BridgeConf where
  systems : List (ℕ × List ℕ)
  started : Bool
deriving DecidableEq

/-- Insert or extend a (subsystem, perturbers) entry: a repeated call for the
same subsystem extends its perturber set, otherwise the entry is appended. -/
def addEntry : List (ℕ × List ℕ) → ℕ → List ℕ → List (ℕ × List ℕ)
  | [], sys, ps => [(sys, ps)]
  | e :: rest, sys, ps =>
    if e.1 = sys then (e.1, e.2 ++ ps) :: rest else e :: addEntry rest sys ps

/-- Modelled from the spec: `Bridge.add_system` registers a subsystem with
its perturber tuple; called again for the same subsystem it extends the
perturber set; called after the run has started it fails with an explicit
`InvalidState` error rather than silently registering. -/
def add_system (b : BridgeConf) (sys : ℕ) (ps : List ℕ) :
    Except BridgeError BridgeConf :=
  if b.started then Except.error BridgeError.invalidState
  else Except.ok { b with systems := addEntry b.systems sys ps }

/-- Modelled from the spec: the registration-relevant effect of the first
`evolve_model` call — the bridge leaves the configuring state. -/
def firstEvolve (b : BridgeConf) : BridgeConf := { b with started := true }

/-- The perturber set registered for a subsystem id. -/
def perturbersOf (l : List (ℕ × List ℕ)) (sys : ℕ) : List ℕ :=
  (l.lookup sys).getD []

/-- An attribute record of a particle: named scalar attributes with rational
values, as an association list. -/
abbrev ParticleRec := List (String × ℚ)

/-- A particle collection for channel synchronization: an ordered mapping
from particle key to attribute record. -/
abbrev Collection := List (ℕ × ParticleRec)

/-- Overwrite (or, when absent, append) the value of one named attribute in
a record. -/
def setAttr : ParticleRec → String → ℚ → ParticleRec
  | [], a, v => [(a, v)]
  | e :: rest, a, v =>
    if e.1 = a then (e.1, v) :: rest else e :: setAttr rest a v

/-- Apply the configured (source attribute, target attribute) pairs of a
channel to one target record, reading values from the matched source record.
An attribute absent on the source is a no-op for that pair. -/
def copyRec (pairs : List (String × String)) (srec : ParticleRec)
    (r : ParticleRec) : ParticleRec :=
  pairs.foldl
    (fun r ab =>
      match srec.lookup ab.1 with
      | some v => setAttr r ab.2 v
      | none => r) r

/-- The new record of a target particle with key `k`: unchanged when the key
is absent from the source, otherwise the configured attributes are copied
from the source record under their target names. -/
def updatedRec (attributes targetNames : List String) (src : Collection)
    (k : ℕ) (r : ParticleRec) : ParticleRec :=
  match src.lookup k with
  | none => r
  | some srec => copyRec (attributes.zip targetNames) srec r

/-- Modelled from the spec: `Channel.copy` with a restricted attribute set
and renamed target attribute names (the channel implementation lives in the
external AMUSE data model; the notebooks configure it via `new_channel_to`
with `attributes` and `target_names`).  Records are matched by particle key;
keys absent from the target are ignored, keys absent from the source are
left unchanged, and the source is never written to. -/
def channel_copy (attributes targetNames : List String) (src tgt : Collection) :
    Collection :=
  tgt.map (fun e => (e.1, updatedRec attributes targetNames src e.1 e.2))

/-- An SPH gas particle: mass, position, velocity and specific internal
energy u, embedded from the hydrodynamics notebook's data model. -/
structure SPHParticle where
  mass : ℚ
  x : ℚ
  y : ℚ
  z : ℚ
  vx : ℚ
  vy : ℚ
  vz : ℚ
  u : ℚ
deriving DecidableEq

/-- The selection predicate of `inject_supernova_energy`: the particle's
position has squared length strictly less than the squared exploding
region radius. -/
def insideRegionB (R : ℚ) (p : SPHParticle) : Bool :=
  decide (p.x * p.x + p.y * p.y + p.z * p.z < R * R)

/-- The inner particles selected by `inject_supernova_energy`. -/
def innerOf (R : ℚ) (l : List SPHParticle) : List SPHParticle :=
  l.filter (insideRegionB R)

/-- Total mass of a particle list (`total_mass` of a selection). -/
def totalMass (l : List SPHParticle) : ℚ := (l.map (fun p => p.mass)).sum

/-- Embedded from src/unnamed/part_000 `inject_supernova_energy`: select the
particles strictly within `explodingRegion` of the origin and add
`explosionEnergy / inner.total_mass()` to the specific internal energy `u`
of each selected particle; nothing else is modified. -/
def inject_supernova_energy (explosionEnergy explodingRegion : ℚ)
    (gas : List SPHParticle) : List SPHParticle :=
  gas.map (fun p =>
    if insideRegionB explodingRegion p then
      { p with u := p.u + explosionEnergy / totalMass (innerOf explodingRegion gas) }
    else p)

/-- Total internal energy of a gas particle list: the mass-weighted sum of
the specific internal energies. -/
def internalEnergy (l : List SPHParticle) : ℚ :=
  (l.map (fun p => p.mass * p.u)).sum

/-- A concrete 3-particle source collection for the channel witness. -/
def srcW : Collection :=
  [(1, [("mass", 10), ("radius", 2)]),
   (2, [("mass", 20), ("radius", 3)]),
   (3, [("mass", 30), ("radius", 4)])]

/-- A concrete target collection sharing 2 of the 3 source keys, with an
extra unlisted attribute. -/
def tgtW : Collection :=
  [(1, [("mass", 1), ("collision_radius", 0), ("vx", 5)]),
   (2, [("mass", 2), ("collision_radius", 0)])]

/-- A concrete two-particle gas collection for the injection witness: one
particle at the origin with mass 2, one outside the region. -/
def gasW : List SPHParticle :=
  [{ mass := 2, x := 0, y := 0, z := 0, vx := 0, vy := 0, vz := 0, u := 1 },
   { mass := 1, x := 5, y := 0, z := 0, vx := 0, vy := 0, vz := 0, u := 3 }]

theorem bridgeLoop_stop {S : Type} (step : S → S) (dt tEnd : ℚ) (fuel : ℕ)
    (t : ℚ) (s : S) (h : ¬ t < tEnd - dt / 2) :
    bridgeLoop step dt tEnd fuel (t, s) = (t, s) := by
  cases fuel with
  | zero => rfl
  | succ f => simp [bridgeLoop, h]

theorem bridgeLoop_succ_of_lt {S : Type} (step : S → S) (dt tEnd : ℚ) (fuel : ℕ)
    (t : ℚ) (s : S) (h : t < tEnd - dt / 2) :
    bridgeLoop step dt tEnd (fuel + 1) (t, s)
      = bridgeLoop step dt tEnd fuel (t + dt, step s) := by
  simp [bridgeLoop, h]

theorem bridgeLoop_stop_pair {S : Type} (step : S → S) (dt tEnd : ℚ) (fuel : ℕ)
    (st : ℚ × S) (h : ¬ st.1 < tEnd - dt / 2) :
    bridgeLoop step dt tEnd fuel st = st := by
  obtain ⟨t, s⟩ := st
  exact bridgeLoop_stop step dt tEnd fuel t s h

theorem bridgeLoop_add {S : Type} (step : S → S) (dt tEnd : ℚ) (m n : ℕ) :
    ∀ st : ℚ × S, bridgeLoop step dt tEnd (m + n) st
      = bridgeLoop step dt tEnd n (bridgeLoop step dt tEnd m st) := by
  induction m with
  | zero => intro st; rw [Nat.zero_add]; rfl
  | succ m ih =>
    intro st
    obtain ⟨t, s⟩ := st
    by_cases h : t < tEnd - dt / 2
    · have h1 : m + 1 + n = (m + n) + 1 := by omega
      rw [h1, bridgeLoop_succ_of_lt step dt tEnd (m + n) t s h,
        bridgeLoop_succ_of_lt step dt tEnd m t s h]
      exact ih _
    · rw [bridgeLoop_stop step dt tEnd (m + 1 + n) t s h,
        bridgeLoop_stop step dt tEnd (m + 1) t s h,
        bridgeLoop_stop step dt tEnd n t s h]

theorem bridgeLoop_post {S : Type} (step : S → S) {dt : ℚ} (tEnd : ℚ)
    (hdt : 0 < dt) :
    ∀ (fuel : ℕ) (t : ℚ) (s : S), tEnd - dt / 2 - t ≤ fuel * dt →
      tEnd - dt / 2 ≤ (bridgeLoop step dt tEnd fuel (t, s)).1 := by
  intro fuel
  induction fuel with
  | zero =>
    intro t s h
    simp only [bridgeLoop]
    push_cast at h
    linarith
  | succ f ih =>
    intro t s h
    by_cases hg : t < tEnd - dt / 2
    · rw [bridgeLoop_succ_of_lt step dt tEnd f t s hg]
      apply ih
      push_cast at h ⊢
      linarith
    · rw [bridgeLoop_stop step dt tEnd (f + 1) t s hg]
      simpa using not_lt.mp hg

theorem bridgeLoop_whole_steps {S : Type} (step : S → S) (dt tEnd : ℚ) :
    ∀ (fuel : ℕ) (t : ℚ) (s : S),
      ∃ k : ℕ, (bridgeLoop step dt tEnd fuel (t, s)).1 = t + k * dt := by
  intro fuel
  induction fuel with
  | zero =>
    intro t s
    exact ⟨0, by simp [bridgeLoop]⟩
  | succ f ih =>
    intro t s
    by_cases hg : t < tEnd - dt / 2
    · rw [bridgeLoop_succ_of_lt step dt tEnd f t s hg]
      obtain ⟨k, hk⟩ := ih (t + dt) (step s)
      refine ⟨k + 1, ?_⟩
      rw [hk]
      push_cast
      ring
    · rw [bridgeLoop_stop step dt tEnd (f + 1) t s hg]
      exact ⟨0, by simp⟩

/-- C1: for every timestep `dt > 0` and target time `tEnd`, the bridge loop
repeats coupling steps while `current_time < tEnd - dt/2`, advancing the time
by exactly `dt` after each completed step; it terminates (the result is stable
once the fuel reaches `N`), and on normal return the time has increased by a
whole number of steps of `dt` and satisfies `current_time ≥ tEnd - dt/2`. -/
theorem bridge_evolve_model_time {S : Type} (step : S → S) (dt tEnd t0 : ℚ)
    (s0 : S) (hdt : 0 < dt) :
    (∀ (fuel : ℕ) (t : ℚ) (s : S), t < tEnd - dt / 2 →
        bridgeLoop step dt tEnd (fuel + 1) (t, s)
          = bridgeLoop step dt tEnd fuel (t + dt, step s))
    ∧ ∃ N : ℕ,
        (∀ m : ℕ, N ≤ m →
          bridgeLoop step dt tEnd m (t0, s0) = bridgeLoop step dt tEnd N (t0, s0))
        ∧ ∃ k : ℕ, (bridgeLoop step dt tEnd N (t0, s0)).1 = t0 + k * dt
            ∧ tEnd - dt / 2 ≤ t0 + k * dt := by
  constructor
  · intro fuel t s h
    exact bridgeLoop_succ_of_lt step dt tEnd fuel t s h
  · refine ⟨(⌈(tEnd - dt / 2 - t0) / dt⌉).toNat, ?_, ?_⟩
    · intro m hm
      set N := (⌈(tEnd - dt / 2 - t0) / dt⌉).toNat with hN
      have hbound : tEnd - dt / 2 - t0 ≤ (N : ℚ) * dt := by
        have h1 : (tEnd - dt / 2 - t0) / dt ≤ ((⌈(tEnd - dt / 2 - t0) / dt⌉ : ℤ) : ℚ) :=
          Int.le_ceil _
        have h2 : ((⌈(tEnd - dt / 2 - t0) / dt⌉ : ℤ) : ℚ) ≤ (N : ℚ) := by
          rw [hN]
          exact_mod_cast Int.self_le_toNat _
        have h3 : (tEnd - dt / 2 - t0) / dt ≤ (N : ℚ) := le_trans h1 h2
        calc tEnd - dt / 2 - t0 = (tEnd - dt / 2 - t0) / dt * dt := by
              rw [div_mul_cancel₀ _ (ne_of_gt hdt)]
          _ ≤ (N : ℚ) * dt := by
              exact mul_le_mul_of_nonneg_right h3 (le_of_lt hdt)
      have hpost : tEnd - dt / 2 ≤ (bridgeLoop step dt tEnd N (t0, s0)).1 :=
        bridgeLoop_post step tEnd hdt N t0 s0 (by linarith)
      have hm2 : m = N + (m - N) := by omega
      rw [hm2, bridgeLoop_add step dt tEnd N (m - N) (t0, s0)]
      exact bridgeLoop_stop_pair step dt tEnd (m - N) _ (not_lt.mpr hpost)
    · set N := (⌈(tEnd - dt / 2 - t0) / dt⌉).toNat with hN
      obtain ⟨k, hk⟩ := bridgeLoop_whole_steps step dt tEnd N t0 s0
      refine ⟨k, hk, ?_⟩
      have hbound : tEnd - dt / 2 - t0 ≤ (N : ℚ) * dt := by
        have h1 : (tEnd - dt / 2 - t0) / dt ≤ ((⌈(tEnd - dt / 2 - t0) / dt⌉ : ℤ) : ℚ) :=
          Int.le_ceil _
        have h2 : ((⌈(tEnd - dt / 2 - t0) / dt⌉ : ℤ) : ℚ) ≤ (N : ℚ) := by
          rw [hN]
          exact_mod_cast Int.self_le_toNat _
        have h3 : (tEnd - dt / 2 - t0) / dt ≤ (N : ℚ) := le_trans h1 h2
        calc tEnd - dt / 2 - t0 = (tEnd - dt / 2 - t0) / dt * dt := by
              rw [div_mul_cancel₀ _ (ne_of_gt hdt)]
          _ ≤ (N : ℚ) * dt := by
              exact mul_le_mul_of_nonneg_right h3 (le_of_lt hdt)
      have hpost : tEnd - dt / 2 ≤ (bridgeLoop step dt tEnd N (t0, s0)).1 :=
        bridgeLoop_post step tEnd hdt N t0 s0 (by linarith)
      rw [hk] at hpost
      exact hpost

/-- Witness for C1 at a concrete instance: the identity step on `Unit`,
`dt = 1`, `tEnd = 2`, starting time `0`. -/
theorem bridge_evolve_model_time_witness :
    (0 : ℚ) < 1 ∧
      ((∀ (fuel : ℕ) (t : ℚ) (s : Unit), t < 2 - 1 / 2 →
          bridgeLoop (fun u => u) 1 2 (fuel + 1) (t, s)
            = bridgeLoop (fun u => u) 1 2 fuel (t + 1, s))
        ∧ ∃ N : ℕ,
            (∀ m : ℕ, N ≤ m →
              bridgeLoop (fun u => u) 1 2 m ((0 : ℚ), ())
                = bridgeLoop (fun u => u) 1 2 N ((0 : ℚ), ()))
            ∧ ∃ k : ℕ, (bridgeLoop (fun u => u) 1 2 N ((0 : ℚ), ())).1 = 0 + (k : ℚ) * 1
                ∧ (2 : ℚ) - 1 / 2 ≤ 0 + (k : ℚ) * 1) := by
  exact ⟨by norm_num,
    bridge_evolve_model_time (fun u => u) 1 2 0 () (by norm_num)⟩

theorem phase_beq_kick_kick : (Phase.kick == Phase.kick) = true := rfl

theorem phase_beq_drift_kick : (Phase.drift == Phase.kick) = false := rfl

theorem phase_beq_kick_drift : (Phase.kick == Phase.drift) = false := rfl

theorem phase_beq_drift_drift : (Phase.drift == Phase.drift) = true := rfl

theorem runMethod_append {S : Type} (K D : ℚ → S → S) (l1 l2 : Method)
    (c : ℚ) (x : S) :
    runMethod K D (l1 ++ l2) c x = runMethod K D l2 c (runMethod K D l1 c x) := by
  simp [runMethod, List.foldl_append]

theorem runMethod_reverse_inverse {S : Type} (K D : ℚ → S → S)
    (hK0 : ∀ s, K 0 s = s) (hKadd : ∀ a b s, K a (K b s) = K (a + b) s)
    (hD0 : ∀ s, D 0 s = s) (hDadd : ∀ a b s, D a (D b s) = D (a + b) s)
    (dt : ℚ) :
    ∀ (m : Method) (s : S),
      runMethod K D m.reverse (-dt) (runMethod K D m dt s) = s := by
  intro m
  induction m with
  | nil => intro s; rfl
  | cons pc rest ih =>
    intro s
    have h1 : runMethod K D (pc :: rest) dt s
        = runMethod K D rest dt (stepOp K D dt s pc) := rfl
    have h2 : (pc :: rest).reverse = rest.reverse ++ [pc] := by simp
    rw [h1, h2, runMethod_append K D rest.reverse [pc] (-dt),
      ih (stepOp K D dt s pc)]
    show stepOp K D (-dt) (stepOp K D dt s pc) pc = s
    obtain ⟨ph, c⟩ := pc
    cases ph with
    | kick =>
      show K (c * -dt) (K (c * dt) s) = s
      rw [hKadd]
      have h3 : c * -dt + c * dt = 0 := by ring
      rw [h3, hK0]
    | drift =>
      show D (c * -dt) (D (c * dt) s) = s
      rw [hDadd]
      have h3 : c * -dt + c * dt = 0 := by ring
      rw [h3, hD0]

theorem LEAPFROG_palindrome : LEAPFROG.reverse = LEAPFROG := rfl

theorem SPLIT_4TH_S_M4_palindrome : SPLIT_4TH_S_M4.reverse = SPLIT_4TH_S_M4 := rfl

/-- C5: each composition method is a fixed named sequence of kick/drift calls
with fixed coefficients: the 2nd-order leapfrog invokes exactly
kick(dt/2); drift(dt); kick(dt/2), and the 4th-order SPLIT_4TH_S_M4 is a fixed
sequence whose kick coefficients sum to 1 and whose drift coefficients sum
to 1 (as do the leapfrog's). -/
theorem composition_method_coefficients :
    LEAPFROG = [(Phase.kick, 1 / 2), (Phase.drift, 1), (Phase.kick, 1 / 2)]
    ∧ (∀ (S : Type) (K D : ℚ → S → S) (dt : ℚ) (s : S),
        runMethod K D LEAPFROG dt s = K (dt / 2) (D dt (K (dt / 2) s)))
    ∧ kickSum LEAPFROG = 1 ∧ driftSum LEAPFROG = 1
    ∧ kickSum SPLIT_4TH_S_M4 = 1 ∧ driftSum SPLIT_4TH_S_M4 = 1 := by
  refine ⟨rfl, ?_, ?_, ?_, ?_, ?_⟩
  · intro S K D dt s
    have h1 : (1 / 2 : ℚ) * dt = dt / 2 := by ring
    have h2 : (1 : ℚ) * dt = dt := one_mul dt
    show K ((1 / 2 : ℚ) * dt) (D ((1 : ℚ) * dt) (K ((1 / 2 : ℚ) * dt) s))
      = K (dt / 2) (D dt (K (dt / 2) s))
    rw [h1, h2]
  · norm_num [kickSum, kickCoeffs, LEAPFROG, List.filter, phase_beq_kick_kick,
      phase_beq_drift_kick]
  · norm_num [driftSum, driftCoeffs, LEAPFROG, List.filter, phase_beq_kick_drift,
      phase_beq_drift_drift]
  · norm_num [kickSum, kickCoeffs, SPLIT_4TH_S_M4, List.filter, phase_beq_kick_kick,
      phase_beq_drift_kick, splitM4K1, splitM4K2, splitM4K3]
  · norm_num [driftSum, driftCoeffs, SPLIT_4TH_S_M4, List.filter, phase_beq_kick_drift,
      phase_beq_drift_drift, splitM4D1, splitM4D2, splitM4D3]

/-- C6: every composition method here is symmetric in time: for kick/drift
closures that accept negative steps and compose as flows, executing the
method with step dt and then with step -dt returns the state exactly to the
original value (the methods are palindromic and each phase is inverted by its
negative step). -/
theorem composition_methods_time_symmetric {S : Type} (K D : ℚ → S → S)
    (hK0 : ∀ s, K 0 s = s) (hKadd : ∀ a b s, K a (K b s) = K (a + b) s)
    (hD0 : ∀ s, D 0 s = s) (hDadd : ∀ a b s, D a (D b s) = D (a + b) s)
    (dt : ℚ) (s : S) :
    runMethod K D LEAPFROG (-dt) (runMethod K D LEAPFROG dt s) = s
    ∧ runMethod K D SPLIT_4TH_S_M4 (-dt)
        (runMethod K D SPLIT_4TH_S_M4 dt s) = s := by
  constructor
  · have h := runMethod_reverse_inverse K D hK0 hKadd hD0 hDadd dt LEAPFROG s
    rw [LEAPFROG_palindrome] at h
    exact h
  · have h := runMethod_reverse_inverse K D hK0 hKadd hD0 hDadd dt SPLIT_4TH_S_M4 s
    rw [SPLIT_4TH_S_M4_palindrome] at h
    exact h

/-- Witness for C6 at a concrete instance: translation flows on the rationals
with timestep 1 and initial state 0. -/
theorem composition_methods_time_symmetric_witness :
    ((∀ x : ℚ, x + (0 : ℚ) = x)
      ∧ (∀ a b x : ℚ, x + b + a = x + (a + b))
      ∧ (∀ x : ℚ, x + 2 * (0 : ℚ) = x)
      ∧ (∀ a b x : ℚ, x + 2 * b + 2 * a = x + 2 * (a + b)))
    ∧ (runMethod (fun a x => x + a) (fun a x => x + 2 * a) LEAPFROG (-(1 : ℚ))
          (runMethod (fun a x => x + a) (fun a x => x + 2 * a) LEAPFROG 1 0) = 0
        ∧ runMethod (fun a x => x + a) (fun a x => x + 2 * a) SPLIT_4TH_S_M4 (-(1 : ℚ))
            (runMethod (fun a x => x + a) (fun a x => x + 2 * a) SPLIT_4TH_S_M4 1 0) = 0) :=
  ⟨⟨fun x => by ring, fun a b x => by ring, fun x => by ring, fun a b x => by ring⟩,
    composition_methods_time_symmetric (fun a x => x + a) (fun a x => x + 2 * a)
      (fun x => by ring) (fun a b x => by ring)
      (fun x => by ring) (fun a b x => by ring) 1 0⟩

theorem runMethodE_error_from_drift {S : Type} (K : ℚ → S → S)
    (D : ℚ → S → Except BridgeError S) (dt : ℚ) :
    ∀ (m : Method) (s : S) (e : BridgeError),
      runMethodE K D dt m s = Except.error e →
      ∃ c sx, D c sx = Except.error e := by
  intro m
  induction m with
  | nil =>
    intro s e h
    exact absurd h (by simp [runMethodE])
  | cons pc rest ih =>
    intro s e h
    obtain ⟨ph, c⟩ := pc
    cases ph with
    | kick =>
      simp only [runMethodE] at h
      exact ih _ e h
    | drift =>
      simp only [runMethodE] at h
      cases hD : D (c * dt) s with
      | ok s1 =>
        rw [hD] at h
        exact ih s1 e h
      | error e0 =>
        rw [hD] at h
        simp only [Except.error.injEq] at h
        exact ⟨c * dt, s, by rw [hD, h]⟩

theorem evolveBE_error {S : Type} (step : S → Except BridgeError S)
    (dt tEnd : ℚ) :
    ∀ (fuel : ℕ) (t : ℚ) (s : S) (e : BridgeError) (t1 : ℚ) (s1 : S),
      evolveBE step dt tEnd fuel (t, s) = Except.error (e, t1, s1) →
      step s1 = Except.error e ∧ t1 < tEnd - dt / 2 ∧ ∃ k : ℕ, t1 = t + k * dt := by
  intro fuel
  induction fuel with
  | zero =>
    intro t s e t1 s1 h
    exact absurd h (by simp [evolveBE])
  | succ f ih =>
    intro t s e t1 s1 h
    simp only [evolveBE] at h
    by_cases hg : t < tEnd - dt / 2
    · rw [if_pos hg] at h
      cases hstep : step s with
      | ok s2 =>
        rw [hstep] at h
        obtain ⟨hs, hlt, k, hk⟩ := ih (t + dt) s2 e t1 s1 h
        refine ⟨hs, hlt, k + 1, ?_⟩
        rw [hk]
        push_cast
        ring
      | error e0 =>
        rw [hstep] at h
        simp only [Except.error.injEq, Prod.mk.injEq] at h
        obtain ⟨he, ht, hs⟩ := h
        subst he
        subst ht
        subst hs
        exact ⟨hstep, hg, 0, by simp⟩
    · rw [if_neg hg] at h
      exact absurd h (by simp)

/-- C2: if any subsystem's drift raises EngineFailure during a coupling step,
the bridge fails the whole step atomically: the returned time is the time
before the failing step (a whole number of completed steps, not advanced by
the failed one), the returned state is the last committed state on which the
step fails with exactly the raised error, and the error originates from a
drift call and is propagated to the caller unchanged, never caught or
retried. -/
theorem bridge_evolve_model_failure_atomic {S : Type} (K : ℚ → S → S)
    (D : ℚ → S → Except BridgeError S) (m : Method) (dt tEnd : ℚ) (fuel : ℕ)
    (t0 : ℚ) (s0 : S) (e : BridgeError) (t1 : ℚ) (s1 : S)
    (h : evolveBE (runMethodE K D dt m) dt tEnd fuel (t0, s0)
        = Except.error (e, t1, s1)) :
    runMethodE K D dt m s1 = Except.error e
    ∧ (∃ k : ℕ, t1 = t0 + k * dt)
    ∧ t1 < tEnd - dt / 2
    ∧ ∃ c sx, D c sx = Except.error e := by
  obtain ⟨hstep, hlt, hk⟩ :=
    evolveBE_error (runMethodE K D dt m) dt tEnd fuel t0 s0 e t1 s1 h
  exact ⟨hstep, hk, hlt, runMethodE_error_from_drift K D dt m s1 e hstep⟩

/-- Witness for C2 at a concrete instance: a leapfrog coupling step whose
drift always raises EngineFailure, with dt = 1 and tEnd = 1 starting at
time 0. -/
theorem bridge_evolve_model_failure_atomic_witness :
    evolveBE (runMethodE kickIdFn driftFailFn 1 LEAPFROG) 1 1 1 ((0 : ℚ), (0 : ℚ))
        = Except.error (BridgeError.engineFailure, 0, 0)
    ∧ (runMethodE kickIdFn driftFailFn 1 LEAPFROG (0 : ℚ)
          = Except.error BridgeError.engineFailure
        ∧ (∃ k : ℕ, (0 : ℚ) = 0 + k * 1)
        ∧ (0 : ℚ) < 1 - 1 / 2
        ∧ ∃ c sx, driftFailFn c sx = Except.error BridgeError.engineFailure) :=
  ⟨by norm_num [evolveBE, runMethodE, LEAPFROG, kickIdFn, driftFailFn],
    bridge_evolve_model_failure_atomic kickIdFn driftFailFn LEAPFROG 1 1 1 0 0
      BridgeError.engineFailure 0 0
      (by norm_num [evolveBE, runMethodE, LEAPFROG, kickIdFn, driftFailFn])⟩

theorem massPosL_kickSys (a : Vec3 → Vec3) (dt : ℚ) (s : Sys) :
    massPosL (kickSys a dt s) = massPosL s := by
  simp [massPosL, kickSys, List.map_map, Function.comp]

theorem accelOfSys_eq_massPos (g : ℚ → Vec3 → Vec3 → Vec3) (s : Sys) (pt : Vec3) :
    accelOfSys g s pt = vsum ((massPosL s).map (fun q => g q.1 q.2 pt)) := by
  simp only [accelOfSys, massPosL, List.map_map]
  rfl

theorem accelOfSys_congr (g : ℚ → Vec3 → Vec3 → Vec3) {s1 s2 : Sys}
    (h : massPosL s1 = massPosL s2) (pt : Vec3) :
    accelOfSys g s1 pt = accelOfSys g s2 pt := by
  rw [accelOfSys_eq_massPos, accelOfSys_eq_massPos, h]

theorem perturberAccel_congr (g : ℚ → Vec3 → Vec3 → Vec3)
    (perts : List (List ℕ)) {cur systems : List Sys}
    (h : ∀ j, massPosL (cur.getD j []) = massPosL (systems.getD j []))
    (i : ℕ) :
    perturberAccel g perts cur i = perturberAccel g perts systems i := by
  funext pt
  unfold perturberAccel accelOfSystems
  rw [List.map_map, List.map_map]
  congr 1
  apply List.map_congr_left
  intro j hj
  exact accelOfSys_congr g (h j) pt

theorem getD_set_cases {α : Type} :
    ∀ (l : List α) (i j : ℕ) (x d : α),
      (l.set i x).getD j d = if i = j ∧ i < l.length then x else l.getD j d := by
  intro l
  induction l with
  | nil =>
    intro i j x d
    cases i <;> simp
  | cons a tl ih =>
    intro i j x d
    cases i with
    | zero =>
      cases j with
      | zero => simp
      | succ k => simp
    | succ m =>
      cases j with
      | zero => simp
      | succ k =>
        have h1 : ((a :: tl).set (m + 1) x).getD (k + 1) d = (tl.set m x).getD k d :=
          rfl
        rw [h1, ih m k x d]
        have h2 : (m = k ∧ m < tl.length) ↔ (m + 1 = k + 1 ∧ m + 1 < (a :: tl).length) := by
          simp only [List.length_cons]
          omega
        by_cases hc : m = k ∧ m < tl.length
        · rw [if_pos hc, if_pos (h2.mp hc)]
        · rw [if_neg hc, if_neg (fun hcc => hc (h2.mpr hcc))]
          rfl

theorem withIdx_mem_getD {α : Type} (d : α) :
    ∀ (l : List α) (k : ℕ) (q : ℕ × α), q ∈ withIdx k l →
      ∃ j, q.1 = k + j ∧ l.getD j d = q.2 := by
  intro l
  induction l with
  | nil => intro k q hq; exact absurd hq (by simp [withIdx])
  | cons a tl ih =>
    intro k q hq
    simp only [withIdx, List.mem_cons] at hq
    cases hq with
    | inl h =>
      subst h
      exact ⟨0, by omega, rfl⟩
    | inr h =>
      obtain ⟨j, hj, hv⟩ := ih (k + 1) q h
      exact ⟨j + 1, by omega, hv⟩

theorem withIdx_mem_le {α : Type} :
    ∀ (l : List α) (k : ℕ) (q : ℕ × α), q ∈ withIdx k l → k ≤ q.1 := by
  intro l
  induction l with
  | nil => intro k q hq; exact absurd hq (by simp [withIdx])
  | cons a tl ih =>
    intro k q hq
    simp only [withIdx, List.mem_cons] at hq
    cases hq with
    | inl h => subst h; exact le_refl k
    | inr h => exact le_trans (Nat.le_succ k) (ih (k + 1) q h)

theorem withIdx_pairwise_ne {α : Type} :
    ∀ (l : List α) (k : ℕ),
      List.Pairwise (fun p q : ℕ × α => p.1 ≠ q.1) (withIdx k l) := by
  intro l
  induction l with
  | nil => intro k; exact List.Pairwise.nil
  | cons a tl ih =>
    intro k
    refine List.Pairwise.cons ?_ (ih (k + 1))
    intro q hq
    have := withIdx_mem_le tl (k + 1) q hq
    omega

theorem forall2_withIdx_map {α β : Type} (R : β → α → Prop) (f : ℕ × α → β)
    (h : ∀ i a, R (f (i, a)) a) :
    ∀ (l : List α) (k : ℕ), List.Forall₂ R ((withIdx k l).map f) l := by
  intro l
  induction l with
  | nil => intro k; exact List.Forall₂.nil
  | cons a tl ih =>
    intro k
    exact List.Forall₂.cons (h k a) (ih (k + 1))

theorem kickAllSeqGo_eq_sim (g : ℚ → Vec3 → Vec3 → Vec3) (dt : ℚ)
    (perts : List (List ℕ)) (systems : List Sys) :
    ∀ (l : List (ℕ × Sys)) (cur : List Sys),
      (∀ q ∈ l, cur.getD q.1 [] = systems.getD q.1 []) →
      (∀ q ∈ l, systems.getD q.1 [] = q.2) →
      (∀ j, massPosL (cur.getD j []) = massPosL (systems.getD j [])) →
      List.Pairwise (fun p q : ℕ × Sys => p.1 ≠ q.1) l →
      kickAllSeqGo g dt perts l cur
        = l.map (fun p => kickSys (perturberAccel g perts systems p.1) dt p.2) := by
  intro l
  induction l with
  | nil => intro cur h1 h2 h3 h4; rfl
  | cons p rest ih =>
    intro cur h1 h2 h3 h4
    have hacc : perturberAccel g perts cur p.1 = perturberAccel g perts systems p.1 :=
      perturberAccel_congr g perts h3 p.1
    have hown : cur.getD p.1 [] = systems.getD p.1 [] :=
      h1 p (List.mem_cons_self p rest)
    have hp2 : systems.getD p.1 [] = p.2 := h2 p (List.mem_cons_self p rest)
    have hhead : kickSys (perturberAccel g perts cur p.1) dt (cur.getD p.1 [])
        = kickSys (perturberAccel g perts systems p.1) dt p.2 := by
      rw [hacc, hown, hp2]
    rw [List.pairwise_cons] at h4
    obtain ⟨hne, hpw⟩ := h4
    simp only [kickAllSeqGo, List.map_cons]
    rw [hhead]
    congr 1
    apply ih
    · intro q hq
      rw [getD_set_cases]
      have hqne : p.1 ≠ q.1 := hne q hq
      rw [if_neg (fun hcc => hqne hcc.1)]
      exact h1 q (List.mem_cons_of_mem p hq)
    · intro q hq
      exact h2 q (List.mem_cons_of_mem p hq)
    · intro j
      rw [getD_set_cases]
      by_cases hc : p.1 = j ∧ p.1 < cur.length
      · rw [if_pos hc]
        rw [massPosL_kickSys, ← hp2, hc.1]
      · rw [if_neg hc]
        exact h3 j
    · exact hpw

/-- C4: within a single kick phase every perturber acceleration is evaluated
on the shared pre-kick snapshot and the velocity increments dt times the
acceleration are then applied to all subsystems: the sequential in-place
rendering of the kick phase (which reads the evolving list of subsystems)
computes exactly the synchronized snapshot semantics, because a kick never
changes the masses and positions a gravity query can observe — no
subsystem's kick reads another subsystem's post-kick state. -/
theorem kick_phase_synchronized (g : ℚ → Vec3 → Vec3 → Vec3) (dt : ℚ)
    (perts : List (List ℕ)) (systems : List Sys) :
    kickAllSeq g dt perts systems = kickAllSim g dt perts systems
    ∧ List.Forall₂ (fun s1 s2 => massPosL s1 = massPosL s2)
        (kickAllSim g dt perts systems) systems := by
  constructor
  · unfold kickAllSeq kickAllSim
    apply kickAllSeqGo_eq_sim
    · intro q hq; rfl
    · intro q hq
      obtain ⟨j, hj, hv⟩ := withIdx_mem_getD ([] : Sys) systems 0 q hq
      have hj0 : j = q.1 := by omega
      rw [← hj0]
      exact hv
    · intro j; rfl
    · exact withIdx_pairwise_ne systems 0
  · apply forall2_withIdx_map
    intro i a
    exact massPosL_kickSys (perturberAccel g perts systems i) dt a

theorem kickSys_no_perturbers (g : ℚ → Vec3 → Vec3 → Vec3) (c : ℚ) (s : Sys) :
    kickSys (accelOfSystems g []) c s = s := by
  have hz : ∀ v : Vec3, vadd v (smul c vzero) = v := by
    intro v
    obtain ⟨x, y, z⟩ := v
    simp [vadd, smul, vzero]
  have he : ∀ p : Particle,
      { p with vel := vadd p.vel (smul c (accelOfSystems g [] p.pos)) } = p := by
    intro p
    have h1 : accelOfSystems g [] p.pos = vzero := rfl
    rw [h1, hz]
  unfold kickSys
  calc s.map (fun p => { p with vel := vadd p.vel (smul c (accelOfSystems g [] p.pos)) })
      = s.map id := List.map_congr_left (fun p _ => he p)
    _ = s := List.map_id s

theorem runMethod_flow_drift (g : ℚ → Vec3 → Vec3 → Vec3) (F : ℚ → Sys → Sys)
    (hF0 : ∀ s, F 0 s = s) (hFadd : ∀ a b s, F a (F b s) = F (a + b) s)
    (dt : ℚ) :
    ∀ (m : Method) (s : Sys),
      runMethod (fun c s => kickSys (accelOfSystems g []) c s) F m dt s
        = F (driftSum m * dt) s := by
  intro m
  induction m with
  | nil =>
    intro s
    have h0 : driftSum ([] : Method) = 0 := rfl
    rw [h0, zero_mul, hF0]
    rfl
  | cons pc rest ih =>
    intro s
    obtain ⟨ph, c⟩ := pc
    cases ph with
    | kick =>
      have h1 : runMethod (fun c s => kickSys (accelOfSystems g []) c s) F
            ((Phase.kick, c) :: rest) dt s
          = runMethod (fun c s => kickSys (accelOfSystems g []) c s) F rest dt
            (kickSys (accelOfSystems g []) (c * dt) s) := rfl
      rw [h1, kickSys_no_perturbers g (c * dt) s, ih s]
      have h2 : driftSum ((Phase.kick, c) :: rest) = driftSum rest := by
        simp [driftSum, driftCoeffs, List.filter, phase_beq_kick_drift]
      rw [h2]
    | drift =>
      have h1 : runMethod (fun c s => kickSys (accelOfSystems g []) c s) F
            ((Phase.drift, c) :: rest) dt s
          = runMethod (fun c s => kickSys (accelOfSystems g []) c s) F rest dt
            (F (c * dt) s) := rfl
      rw [h1, ih (F (c * dt) s), hFadd]
      have h2 : driftSum ((Phase.drift, c) :: rest) = c + driftSum rest := by
        simp [driftSum, driftCoeffs, List.filter, phase_beq_drift_drift]
      rw [h2]
      congr 1
      ring

theorem bridgeLoop_flow (F : ℚ → Sys → Sys) (dt tEnd : ℚ) (hdt : 0 < dt)
    (hF0 : ∀ s, F 0 s = s) (hFadd : ∀ a b s, F a (F b s) = F (a + b) s) :
    ∀ (n fuel : ℕ) (t : ℚ) (s : Sys), n ≤ fuel → tEnd = t + n * dt →
      bridgeLoop (fun s => F dt s) dt tEnd fuel (t, s) = (tEnd, F (n * dt) s) := by
  intro n
  induction n with
  | zero =>
    intro fuel t s hf hT
    have hTt : tEnd = t := by
      rw [hT]
      push_cast
      ring
    have hg : ¬ t < tEnd - dt / 2 := by
      rw [hTt]
      intro hlt
      linarith
    rw [bridgeLoop_stop _ dt tEnd fuel t s hg]
    have hz : ((0 : ℕ) : ℚ) * dt = 0 := by push_cast; ring
    rw [hz, hF0, hTt]
  | succ n ih =>
    intro fuel t s hf hT
    obtain ⟨f, rfl⟩ : ∃ f, fuel = f + 1 := ⟨fuel - 1, by omega⟩
    have hg : t < tEnd - dt / 2 := by
      rw [hT]
      have hn : (0 : ℚ) ≤ (n : ℚ) := Nat.cast_nonneg n
      have h2 : 0 ≤ (n : ℚ) * dt := mul_nonneg hn (le_of_lt hdt)
      push_cast
      linarith
    rw [bridgeLoop_succ_of_lt _ dt tEnd f t s hg]
    have hT2 : tEnd = (t + dt) + (n : ℚ) * dt := by
      rw [hT]
      push_cast
      ring
    rw [ih f (t + dt) (F dt s) (by omega) hT2, hFadd]
    have h3 : (n : ℚ) * dt + dt = ((n + 1 : ℕ) : ℚ) * dt := by
      push_cast
      ring
    rw [h3]

/-- C7 counterexample: the claim as stated fails for a target time that is
not a whole number of coupling steps from the start.  A single subsystem
with no perturbers, translating at unit rate, driven by a leapfrog bridge
with dt = 1/2 to t_end = 3/4, stops after one step (at time 1/2 ≥ 3/4 - 1/4)
with position x = 1/2, while its own evolve_model reaches x = 3/4. -/
theorem bridge_no_perturbers_counterexample :
    (bridgeLoop (bridge1Step gzeroFn translateFlow LEAPFROG (1 / 2)) (1 / 2)
        (3 / 4) 2 ((0 : ℚ), oneParticle)).2
      ≠ subsystemEvolve translateFlow 0 (3 / 4) oneParticle := by
  have hL : (bridgeLoop (bridge1Step gzeroFn translateFlow LEAPFROG (1 / 2)) (1 / 2)
      (3 / 4) 2 ((0 : ℚ), oneParticle)).2
      = [{ mass := 1, pos := (1 / 2, 0, 0), vel := vzero }] := by
    norm_num [bridgeLoop, bridge1Step, runMethod, stepOp, LEAPFROG, kickSys,
      accelOfSystems, accelOfSys, vsum, vadd, smul, vzero, translateFlow,
      oneParticle, List.foldl]
  have hR : subsystemEvolve translateFlow 0 (3 / 4) oneParticle
      = [{ mass := 1, pos := (3 / 4, 0, 0), vel := vzero }] := by
    norm_num [subsystemEvolve, translateFlow, oneParticle, vadd, vzero]
  rw [hL, hR]
  intro h
  simp only [List.cons.injEq, Particle.mk.injEq, Prod.mk.injEq, and_true] at h
  norm_num at h

/-- C7 (amended): for a subsystem registered with an empty perturber set as
the only system, whose engine evolves as a deterministic flow, driving it via
the bridge to a target time that is a whole number of coupling steps from the
start produces exactly the same subsystem state as the subsystem's own
evolve_model with the same target time, and the kick phase is a no-op when
there are no perturbers. -/
theorem bridge_no_perturbers_matches_direct (g : ℚ → Vec3 → Vec3 → Vec3)
    (F : ℚ → Sys → Sys) (m : Method) (dt tEnd t0 : ℚ) (s0 : Sys) (n fuel : ℕ)
    (hdt : 0 < dt) (hF0 : ∀ s, F 0 s = s)
    (hFadd : ∀ a b s, F a (F b s) = F (a + b) s)
    (hsum : driftSum m = 1) (hT : tEnd = t0 + n * dt) (hfuel : n ≤ fuel) :
    (∀ (c : ℚ) (s : Sys), kickSys (accelOfSystems g []) c s = s)
    ∧ (bridgeLoop (bridge1Step g F m dt) dt tEnd fuel (t0, s0)).2
        = subsystemEvolve F t0 tEnd s0 := by
  refine ⟨fun c s => kickSys_no_perturbers g c s, ?_⟩
  have hstep : bridge1Step g F m dt = fun s => F dt s := by
    funext s
    unfold bridge1Step
    rw [runMethod_flow_drift g F hF0 hFadd dt m s, hsum, one_mul]
  rw [hstep, bridgeLoop_flow F dt tEnd hdt hF0 hFadd n fuel t0 s0 hfuel hT]
  unfold subsystemEvolve
  show F ((n : ℚ) * dt) s0 = F (tEnd - t0) s0
  congr 1
  rw [hT]
  ring

/-- Witness for the amended C7 at a concrete instance: the identity flow with
a leapfrog bridge, dt = 1, tEnd = 2 = 0 + 2 steps, fuel 2. -/
theorem bridge_no_perturbers_matches_direct_witness :
    ((0 : ℚ) < 1
      ∧ (∀ s : Sys, idFlow 0 s = s)
      ∧ (∀ (a b : ℚ) (s : Sys), idFlow a (idFlow b s) = idFlow (a + b) s)
      ∧ driftSum LEAPFROG = 1
      ∧ (2 : ℚ) = 0 + ((2 : ℕ) : ℚ) * 1
      ∧ (2 : ℕ) ≤ 2)
    ∧ ((∀ (c : ℚ) (s : Sys), kickSys (accelOfSystems gzeroFn []) c s = s)
        ∧ (bridgeLoop (bridge1Step gzeroFn idFlow LEAPFROG 1) 1 2 2
              ((0 : ℚ), oneParticle)).2
            = subsystemEvolve idFlow 0 2 oneParticle) :=
  ⟨⟨by norm_num, fun s => rfl, fun a b s => rfl,
      by norm_num [driftSum, driftCoeffs, LEAPFROG, List.filter,
        phase_beq_kick_drift, phase_beq_drift_drift],
      by norm_num, le_refl 2⟩,
    bridge_no_perturbers_matches_direct gzeroFn idFlow LEAPFROG 1 2 0
      oneParticle 2 2 (by norm_num) (fun s => rfl) (fun a b s => rfl)
      (by norm_num [driftSum, driftCoeffs, LEAPFROG, List.filter,
        phase_beq_kick_drift, phase_beq_drift_drift])
      (by norm_num) (le_refl 2)⟩

theorem perturbersOf_addEntry :
    ∀ (l : List (ℕ × List ℕ)) (sys : ℕ) (ps : List ℕ),
      perturbersOf (addEntry l sys ps) sys = perturbersOf l sys ++ ps := by
  intro l
  induction l with
  | nil =>
    intro sys ps
    simp [addEntry, perturbersOf, List.lookup]
  | cons e rest ih =>
    intro sys ps
    by_cases h : e.1 = sys
    · have h1 : addEntry (e :: rest) sys ps = (e.1, e.2 ++ ps) :: rest := by
        simp [addEntry, h]
      rw [h1]
      have hbeq : (sys == e.1) = true := by simp [h]
      simp [perturbersOf, List.lookup, hbeq]
    · have h1 : addEntry (e :: rest) sys ps = e :: addEntry rest sys ps := by
        simp [addEntry, h]
      rw [h1]
      have hbeq : (sys == e.1) = false := by
        simp
        exact fun hc => h hc.symm
      simp [perturbersOf, List.lookup, hbeq]
      exact ih sys ps

/-- C8: `add_system` may be called repeatedly for the same subsystem, each
call extending that subsystem's perturber set, as long as the run has not
started; once the first `evolve_model` call has happened, `add_system` fails
with an explicit InvalidState error instead of silently registering. -/
theorem add_system_spec (b : BridgeConf) (sys : ℕ) (ps1 ps2 : List ℕ)
    (h : b.started = false) :
    (∃ b1 b2, add_system b sys ps1 = Except.ok b1
      ∧ add_system b1 sys ps2 = Except.ok b2
      ∧ perturbersOf b2.systems sys = perturbersOf b.systems sys ++ ps1 ++ ps2)
    ∧ ∀ (c : BridgeConf) (ps : List ℕ),
        add_system (firstEvolve c) sys ps = Except.error BridgeError.invalidState := by
  constructor
  · refine ⟨{ b with systems := addEntry b.systems sys ps1 },
      { b with systems := addEntry (addEntry b.systems sys ps1) sys ps2 }, ?_, ?_, ?_⟩
    · simp [add_system, h]
    · simp [add_system, h]
    · rw [perturbersOf_addEntry, perturbersOf_addEntry]
  · intro c ps
    simp [add_system, firstEvolve]

/-- Witness for C8 at a concrete instance: an empty, not-yet-started bridge,
registering subsystem 0 with perturbers [1] and then [2]. -/
theorem add_system_spec_witness :
    ({ systems := [], started := false } : BridgeConf).started = false
    ∧ ((∃ b1 b2,
          add_system { systems := [], started := false } 0 [1] = Except.ok b1
          ∧ add_system b1 0 [2] = Except.ok b2
          ∧ perturbersOf b2.systems 0
              = perturbersOf ({ systems := [], started := false } : BridgeConf).systems 0
                ++ [1] ++ [2])
        ∧ ∀ (c : BridgeConf) (ps : List ℕ),
            add_system (firstEvolve c) 0 ps = Except.error BridgeError.invalidState) :=
  ⟨rfl, add_system_spec { systems := [], started := false } 0 [1] [2] rfl⟩

theorem lookup_cons_self {α β : Type} [BEq α] [LawfulBEq α] (k : α) (v : β)
    (es : List (α × β)) : List.lookup k ((k, v) :: es) = some v := by
  simp [List.lookup]

theorem lookup_cons_ne {α β : Type} [BEq α] [LawfulBEq α] (k b : α) (v : β)
    (es : List (α × β)) (h : k ≠ b) :
    List.lookup k ((b, v) :: es) = List.lookup k es := by
  have hb : (k == b) = false := beq_eq_false_iff_ne.mpr h
  simp [List.lookup, hb]

theorem lookup_setAttr_self :
    ∀ (r : ParticleRec) (a : String) (v : ℚ),
      (setAttr r a v).lookup a = some v := by
  intro r
  induction r with
  | nil =>
    intro a v
    exact lookup_cons_self a v []
  | cons e rest ih =>
    intro a v
    by_cases h : e.1 = a
    · have h1 : setAttr (e :: rest) a v = (e.1, v) :: rest := by
        simp [setAttr, h]
      rw [h1, h]
      exact lookup_cons_self a v rest
    · have h1 : setAttr (e :: rest) a v = e :: setAttr rest a v := by
        simp [setAttr, h]
      rw [h1]
      have h2 : List.lookup a ((e.1, e.2) :: setAttr rest a v)
          = List.lookup a (setAttr rest a v) :=
        lookup_cons_ne a e.1 e.2 (setAttr rest a v) (fun hc => h hc.symm)
      rw [← ih a v]
      exact h2

theorem lookup_setAttr_ne :
    ∀ (r : ParticleRec) (a b : String) (v : ℚ), b ≠ a →
      (setAttr r a v).lookup b = r.lookup b := by
  intro r
  induction r with
  | nil =>
    intro a b v hba
    exact lookup_cons_ne b a v [] hba
  | cons e rest ih =>
    intro a b v hba
    obtain ⟨e1, e2⟩ := e
    by_cases h : e1 = a
    · have h1 : setAttr ((e1, e2) :: rest) a v = (e1, v) :: rest := by
        simp [setAttr, h]
      rw [h1]
      by_cases hbe : b = e1
      · exact absurd (hbe.trans h) hba
      · rw [lookup_cons_ne b e1 v rest hbe, lookup_cons_ne b e1 e2 rest hbe]
    · have h1 : setAttr ((e1, e2) :: rest) a v = (e1, e2) :: setAttr rest a v := by
        simp [setAttr, h]
      rw [h1]
      by_cases hbe : b = e1
      · subst hbe
        rw [lookup_cons_self b e2 (setAttr rest a v),
          lookup_cons_self b e2 rest]
      · rw [lookup_cons_ne b e1 e2 (setAttr rest a v) hbe,
          lookup_cons_ne b e1 e2 rest hbe]
        exact ih a b v hba

theorem copyRec_cons (ab : String × String) (rest : List (String × String))
    (srec r : ParticleRec) :
    copyRec (ab :: rest) srec r
      = copyRec rest srec
          (match srec.lookup ab.1 with
           | some v => setAttr r ab.2 v
           | none => r) := rfl

theorem copyRec_lookup_not_target (srec : ParticleRec) (c : String) :
    ∀ (pairs : List (String × String)) (r : ParticleRec),
      c ∉ pairs.map Prod.snd →
      (copyRec pairs srec r).lookup c = r.lookup c := by
  intro pairs
  induction pairs with
  | nil => intro r hc; rfl
  | cons ab rest ih =>
    intro r hc
    have hc2 : c ∉ rest.map Prod.snd := by
      intro hmem
      exact hc (by simp [List.mem_cons]; right; exact (by simpa using hmem))
    have hcne : c ≠ ab.2 := by
      intro he
      exact hc (by simp [he])
    rw [copyRec_cons, ih _ hc2]
    cases hs : srec.lookup ab.1 with
    | none => rfl
    | some v =>
      simp only [hs]
      exact lookup_setAttr_ne r ab.2 c v hcne

theorem copyRec_lookup_hit (srec : ParticleRec) :
    ∀ (pairs : List (String × String)) (r : ParticleRec) (a c : String) (v : ℚ),
      (pairs.map Prod.snd).Nodup → (a, c) ∈ pairs → srec.lookup a = some v →
      (copyRec pairs srec r).lookup c = some v := by
  intro pairs
  induction pairs with
  | nil =>
    intro r a c v hnd hmem hs
    exact absurd hmem (List.not_mem_nil (a, c))
  | cons ab rest ih =>
    intro r a c v hnd hmem hs
    rw [List.map_cons, List.nodup_cons] at hnd
    obtain ⟨hnotin, hndrest⟩ := hnd
    rw [List.mem_cons] at hmem
    cases hmem with
    | inl he =>
      have ha : ab.1 = a := by rw [← he]
      have hcr : ab.2 = c := by rw [← he]
      rw [copyRec_cons]
      have hs2 : srec.lookup ab.1 = some v := by rw [ha]; exact hs
      simp only [hs2]
      rw [copyRec_lookup_not_target srec c rest _ (by rw [← hcr]; exact hnotin)]
      rw [← hcr]
      exact lookup_setAttr_self r ab.2 v
    | inr hrest =>
      have hcin : c ∈ rest.map Prod.snd := by
        exact List.mem_map.mpr ⟨(a, c), hrest, rfl⟩
      rw [copyRec_cons]
      exact ih _ a c v hndrest hrest hs

theorem copyRec_lookup_miss (srec : ParticleRec) :
    ∀ (pairs : List (String × String)) (r : ParticleRec) (a c : String),
      (pairs.map Prod.snd).Nodup → (a, c) ∈ pairs → srec.lookup a = none →
      (copyRec pairs srec r).lookup c = r.lookup c := by
  intro pairs
  induction pairs with
  | nil =>
    intro r a c hnd hmem hs
    exact absurd hmem (List.not_mem_nil (a, c))
  | cons ab rest ih =>
    intro r a c hnd hmem hs
    rw [List.map_cons, List.nodup_cons] at hnd
    obtain ⟨hnotin, hndrest⟩ := hnd
    rw [List.mem_cons] at hmem
    cases hmem with
    | inl he =>
      have ha : ab.1 = a := by rw [← he]
      have hcr : ab.2 = c := by rw [← he]
      rw [copyRec_cons]
      have hs2 : srec.lookup ab.1 = none := by rw [ha]; exact hs
      simp only [hs2]
      exact copyRec_lookup_not_target srec c rest r (by rw [← hcr]; exact hnotin)
    | inr hrest =>
      have hcin : c ∈ rest.map Prod.snd :=
        List.mem_map.mpr ⟨(a, c), hrest, rfl⟩
      have hcne : c ≠ ab.2 := by
        intro he
        exact hnotin (he ▸ hcin)
      rw [copyRec_cons]
      cases hsh : srec.lookup ab.1 with
      | none =>
        simp only [hsh]
        exact ih r a c hndrest hrest hs
      | some w =>
        simp only [hsh]
        rw [ih _ a c hndrest hrest hs]
        exact lookup_setAttr_ne r ab.2 c w hcne

/-- C3: `Channel.copy` copies only the configured attributes, possibly under
renamed target attribute names, matched by particle key: keys and order of
the target are preserved, a key absent from the source is a no-op for that
target particle, and for a matched key exactly the configured target
attributes are overwritten with the source values (a configured attribute
missing on the source leaves the target attribute unchanged), while every
target attribute outside the configured set is untouched.  The copy produces
a new target and never writes to the source collection. -/
theorem channel_copy_spec (attributes targetNames : List String)
    (src tgt : Collection) (hlen : attributes.length = targetNames.length)
    (hnd : targetNames.Nodup) :
    (channel_copy attributes targetNames src tgt).map Prod.fst = tgt.map Prod.fst
    ∧ (∀ (k : ℕ) (r : ParticleRec), src.lookup k = none →
        updatedRec attributes targetNames src k r = r)
    ∧ ∀ (k : ℕ) (r srec : ParticleRec), src.lookup k = some srec →
        (∀ c : String, c ∉ targetNames →
          (updatedRec attributes targetNames src k r).lookup c = r.lookup c)
        ∧ ∀ (i : ℕ) (hi : i < attributes.length) (hj : i < targetNames.length),
            (∀ v : ℚ, srec.lookup (attributes.get ⟨i, hi⟩) = some v →
              (updatedRec attributes targetNames src k r).lookup
                  (targetNames.get ⟨i, hj⟩) = some v)
            ∧ (srec.lookup (attributes.get ⟨i, hi⟩) = none →
              (updatedRec attributes targetNames src k r).lookup
                  (targetNames.get ⟨i, hj⟩)
                = r.lookup (targetNames.get ⟨i, hj⟩)) := by
  have hsnd : (attributes.zip targetNames).map Prod.snd = targetNames :=
    List.map_snd_zip attributes targetNames (le_of_eq hlen.symm)
  refine ⟨?_, ?_, ?_⟩
  · rw [channel_copy, List.map_map]
    rfl
  · intro k r hk
    simp [updatedRec, hk]
  · intro k r srec hk
    have hupd : updatedRec attributes targetNames src k r
        = copyRec (attributes.zip targetNames) srec r := by
      simp [updatedRec, hk]
    constructor
    · intro c hc
      rw [hupd]
      apply copyRec_lookup_not_target
      rw [hsnd]
      exact hc
    · intro i hi hj
      have hzip : i < (attributes.zip targetNames).length := by
        rw [List.length_zip]
        omega
      have hget : (attributes.zip targetNames).get ⟨i, hzip⟩
          = (attributes.get ⟨i, hi⟩, targetNames.get ⟨i, hj⟩) := by
        simp [List.get_eq_getElem, List.getElem_zip]
      have hmem : (attributes.get ⟨i, hi⟩, targetNames.get ⟨i, hj⟩)
          ∈ attributes.zip targetNames := by
        rw [← hget]
        exact List.get_mem (attributes.zip targetNames) i hzip
      have hndp : ((attributes.zip targetNames).map Prod.snd).Nodup := by
        rw [hsnd]
        exact hnd
      constructor
      · intro v hv
        rw [hupd]
        exact copyRec_lookup_hit srec (attributes.zip targetNames) r
          (attributes.get ⟨i, hi⟩) (targetNames.get ⟨i, hj⟩) v hndp hmem hv
      · intro hv
        rw [hupd]
        exact copyRec_lookup_miss srec (attributes.zip targetNames) r
          (attributes.get ⟨i, hi⟩) (targetNames.get ⟨i, hj⟩) hndp hmem hv

/-- Witness for C3 at a concrete instance: copying attributes mass and radius
with renaming to mass and collision_radius, from a 3-particle source to a
target sharing 2 of the 3 keys. -/
theorem channel_copy_spec_witness :
    ((["mass", "radius"] : List String).length
        = (["mass", "collision_radius"] : List String).length
      ∧ (["mass", "collision_radius"] : List String).Nodup)
    ∧ ((channel_copy ["mass", "radius"] ["mass", "collision_radius"] srcW
            tgtW).map Prod.fst
          = tgtW.map Prod.fst
        ∧ (∀ (k : ℕ) (r : ParticleRec), srcW.lookup k = none →
            updatedRec ["mass", "radius"] ["mass", "collision_radius"] srcW k r
              = r)
        ∧ ∀ (k : ℕ) (r srec : ParticleRec), srcW.lookup k = some srec →
            (∀ c : String, c ∉ (["mass", "collision_radius"] : List String) →
              (updatedRec ["mass", "radius"] ["mass", "collision_radius"] srcW
                  k r).lookup c
                = r.lookup c)
            ∧ ∀ (i : ℕ) (hi : i < (["mass", "radius"] : List String).length)
                (hj : i < (["mass", "collision_radius"] : List String).length),
                (∀ v : ℚ,
                  srec.lookup ((["mass", "radius"] : List String).get ⟨i, hi⟩)
                      = some v →
                  (updatedRec ["mass", "radius"] ["mass", "collision_radius"]
                      srcW k r).lookup
                      ((["mass", "collision_radius"] : List String).get ⟨i, hj⟩)
                    = some v)
                ∧ (srec.lookup ((["mass", "radius"] : List String).get ⟨i, hi⟩)
                      = none →
                  (updatedRec ["mass", "radius"] ["mass", "collision_radius"]
                      srcW k r).lookup
                      ((["mass", "collision_radius"] : List String).get ⟨i, hj⟩)
                    = r.lookup
                      ((["mass", "collision_radius"] : List String).get ⟨i, hj⟩))) :=
  ⟨⟨rfl, by decide⟩,
    channel_copy_spec ["mass", "radius"] ["mass", "collision_radius"] srcW tgtW
      rfl (by decide)⟩

theorem forall2_of_map {α β : Type} (R : β → α → Prop) (f : α → β) :
    ∀ (l : List α), (∀ a ∈ l, R (f a) a) → List.Forall₂ R (l.map f) l := by
  intro l
  induction l with
  | nil => intro h; exact List.Forall₂.nil
  | cons a tl ih =>
    intro h
    exact List.Forall₂.cons (h a (List.mem_cons_self a tl))
      (ih (fun b hb => h b (List.mem_cons_of_mem a hb)))

theorem internalEnergy_cons (q : SPHParticle) (l : List SPHParticle) :
    internalEnergy (q :: l) = q.mass * q.u + internalEnergy l := by
  simp [internalEnergy]

theorem totalMass_cons (q : SPHParticle) (l : List SPHParticle) :
    totalMass (q :: l) = q.mass + totalMass l := by
  simp [totalMass]

theorem internalEnergy_inject_aux (c R : ℚ) :
    ∀ l : List SPHParticle,
      internalEnergy
          (l.map (fun p =>
            if insideRegionB R p then { p with u := p.u + c } else p))
        = internalEnergy l + c * totalMass (innerOf R l) := by
  intro l
  induction l with
  | nil => simp [internalEnergy, innerOf, totalMass]
  | cons p tl ih =>
    by_cases hp : insideRegionB R p
    · rw [List.map_cons, if_pos hp, internalEnergy_cons, ih,
        internalEnergy_cons]
      have hf : innerOf R (p :: tl) = p :: innerOf R tl := by
        simp [innerOf, List.filter_cons, hp]
      rw [hf, totalMass_cons]
      show p.mass * (p.u + c) + (internalEnergy tl + c * totalMass (innerOf R tl))
        = p.mass * p.u + internalEnergy tl + c * (p.mass + totalMass (innerOf R tl))
      ring
    · rw [List.map_cons, if_neg hp, internalEnergy_cons, ih,
        internalEnergy_cons]
      have hf : innerOf R (p :: tl) = innerOf R tl := by
        simp [innerOf, List.filter_cons, hp]
      rw [hf]
      ring

/-- C10: for a gas collection with at least one particle strictly within the
exploding region of the origin (and physically positive masses),
`inject_supernova_energy` increases the specific internal energy u of exactly
the inner particles, each by the same amount explosion_energy divided by the
inner particles' total mass, leaves mass, position, velocity and the outer
particles unchanged, and injects a total internal energy of exactly
explosion_energy. -/
theorem inject_supernova_energy_spec (E R : ℚ) (gas : List SPHParticle)
    (hmass : ∀ p ∈ gas, 0 < p.mass)
    (hinner : ∃ p ∈ gas, insideRegionB R p = true) :
    List.Forall₂ (fun q p =>
        q.mass = p.mass ∧ q.x = p.x ∧ q.y = p.y ∧ q.z = p.z
        ∧ q.vx = p.vx ∧ q.vy = p.vy ∧ q.vz = p.vz
        ∧ q.u = p.u
            + (if insideRegionB R p then E / totalMass (innerOf R gas) else 0))
      (inject_supernova_energy E R gas) gas
    ∧ internalEnergy (inject_supernova_energy E R gas)
        = internalEnergy gas + E := by
  have hM : 0 < totalMass (innerOf R gas) := by
    obtain ⟨p, hpmem, hpin⟩ := hinner
    have hpin2 : p ∈ innerOf R gas := by
      rw [innerOf, List.mem_filter]
      exact ⟨hpmem, hpin⟩
    have hpos : ∀ m ∈ (innerOf R gas).map (fun p => p.mass), 0 < m := by
      intro m hm
      obtain ⟨q, hq, rfl⟩ := List.mem_map.mp hm
      exact hmass q (List.mem_of_mem_filter hq)
    have hne : (innerOf R gas).map (fun p => p.mass) ≠ [] := by
      intro hc
      have hin : p.mass ∈ (innerOf R gas).map (fun p => p.mass) :=
        List.mem_map_of_mem (fun p => p.mass) hpin2
      rw [hc] at hin
      exact absurd hin (List.not_mem_nil p.mass)
    show (0 : ℚ) < ((innerOf R gas).map (fun p => p.mass)).sum
    exact List.sum_pos _ hpos hne
  constructor
  · unfold inject_supernova_energy
    apply forall2_of_map
    intro p hp
    by_cases hpin : insideRegionB R p
    · rw [if_pos hpin]
      refine ⟨rfl, rfl, rfl, rfl, rfl, rfl, rfl, ?_⟩
      rw [if_pos hpin]
    · rw [if_neg hpin]
      refine ⟨rfl, rfl, rfl, rfl, rfl, rfl, rfl, ?_⟩
      rw [if_neg hpin, add_zero]
  · unfold inject_supernova_energy
    rw [internalEnergy_inject_aux (E / totalMass (innerOf R gas)) R gas,
      div_mul_cancel₀ E (ne_of_gt hM)]

/-- Witness for C10 at a concrete instance: explosion energy 6 injected into
the particles within radius 1 of the origin of `gasW`. -/
theorem inject_supernova_energy_spec_witness :
    ((∀ p ∈ gasW, 0 < p.mass) ∧ ∃ p ∈ gasW, insideRegionB 1 p = true)
    ∧ (List.Forall₂ (fun q p =>
          q.mass = p.mass ∧ q.x = p.x ∧ q.y = p.y ∧ q.z = p.z
          ∧ q.vx = p.vx ∧ q.vy = p.vy ∧ q.vz = p.vz
          ∧ q.u = p.u
              + (if insideRegionB 1 p then 6 / totalMass (innerOf 1 gasW) else 0))
        (inject_supernova_energy 6 1 gasW) gasW
      ∧ internalEnergy (inject_supernova_energy 6 1 gasW)
          = internalEnergy gasW + 6) := by
  have h1 : ∀ p ∈ gasW, 0 < p.mass := by
    intro p hp
    simp only [gasW, List.mem_cons, List.not_mem_nil, or_false] at hp
    rcases hp with rfl | rfl <;> norm_num
  have h2 : ∃ p ∈ gasW, insideRegionB 1 p = true := by
    have hmem : (⟨2, 0, 0, 0, 0, 0, 0, 1⟩ : SPHParticle) ∈ gasW := by
      simp [gasW]
    refine ⟨_, hmem, ?_⟩
    simp only [insideRegionB, decide_eq_true_eq]
    norm_num
  exact ⟨⟨h1, h2⟩, inject_supernova_energy_spec 6 1 gasW h1 h2⟩
